import Mathlib

/-!
# Verification of the fhe-bpce polynomial-ring CKKS core

Shallow embedding of the repository. Machine integers (`i64`) are
modelled as `Int`; Rust's `i64::rem_euclid` is `Int.emod` (both return the
least non-negative remainder for a positive modulus), Rust's `%` on `i64`
is `Int.tmod` (truncated, sign of the dividend). IEEE doubles that carry
scale factors and noise samples are idealised as `ℚ`; `libm::round`
(round half away from zero) becomes `rround`. Code paths that panic in
Rust (index unwrap, `usize` underflow, empty-collection assert) are
modelled with `Option`, `none` standing for the panic.
-/

/-- `fhe_core::f64::round`: round half away from zero (`libm::round`),
idealised over `ℚ`: `⌊x + 1/2⌋` for `x ≥ 0` and `-⌊-x + 1/2⌋` for
`x < 0` (written with the executable `Rat.floor`). -/
def rround (x : ℚ) : ℤ :=
  if 0 ≤ x then (x + 1/2).floor else -((-x + 1/2).floor)

/-! ## fhe-core/src/pring.rs — `Coeff<P>` and `Polynomial<P, N>`

A `Coeff<P>` stores an `i64`; we model the stored value directly as an
`Int`. The ring degree is `M = 2 ^ N` (the Rust code calls the const
generic exponent `N` and sets `M = 1 << N`). A `Polynomial<P, N>` is the
list of stored coefficient values. -/

/-- `Coeff::<P>::new`: reduce by `i64::rem_euclid(P)`. -/
def coeffNew (P c : Int) : Int := c % P

/-- `impl Add for Coeff<P>`: `(self.0 + rhs.0).rem_euclid(P)`. -/
def coeffAdd (P a b : Int) : Int := (a + b) % P

/-- `impl Sub for Coeff<P>`: `(self.0 - rhs.0).rem_euclid(P)`. -/
def coeffSub (P a b : Int) : Int := (a - b) % P

/-- `impl Mul for Coeff<P>`: `(self.0 * rhs.0).rem_euclid(P)`. -/
def coeffMul (P a b : Int) : Int := (a * b) % P

/-- `impl Neg for Coeff<P>`: `Self(P - self.0)` — no reduction. -/
def coeffNeg (P a : Int) : Int := P - a

/-- The loop body of `Polynomial::rem_cyclo` (pring.rs lines 209-220):
walk the coefficients with `j = i % M` and `k = (i / M) even`, folding
each coefficient into `r[j]` with `Coeff` addition or subtraction. -/
def cycloFold (P : Int) (M : Nat) :
    List Int → Nat → Bool → List Int → List Int
  | [], _, _, r => r
  | c :: cs, j, k, r =>
    let r' := r.set j (if k then coeffAdd P (r.getD j 0) c
                       else coeffSub P (r.getD j 0) c)
    let j' := j + 1
    if M ≤ j' then cycloFold P M cs 0 (!k) r'
    else cycloFold P M cs j' k r'

/-- `Polynomial::rem_cyclo`: inputs shorter than `M = 2^N` are returned
unchanged; otherwise fold into a fresh zero vector of length `M`. -/
def remCyclo (P : Int) (M : Nat) (a : List Int) : List Int :=
  if a.length < M then a else cycloFold P M a 0 true (List.replicate M 0)

/-- `Polynomial::new`: reduce every raw coefficient with `Coeff::new`,
then `rem_cyclo`. -/
def polyNew (P : Int) (M : Nat) (a : List Int) : List Int :=
  remCyclo P M (a.map (coeffNew P))

/-- `Polynomial::add`: element-wise `Coeff` addition, zero-padded to the
longer length. -/
def pringAdd (P : Int) (a b : List Int) : List Int :=
  (List.range (max a.length b.length)).map fun i =>
    coeffAdd P (a.getD i 0) (b.getD i 0)

/-- The raw schoolbook convolution of `Polynomial::multiply` (pring.rs
lines 188-193): a zero vector of length `len(a) + len(b) - 1`, each
product `a_i * b_j` accumulated into slot `i + j` with `Coeff` ops. -/
def pringMulRaw (P : Int) (a b : List Int) : List Int :=
  a.enum.foldl (fun acc il =>
    b.enum.foldl (fun acc2 jr =>
      acc2.set (il.1 + jr.1)
        (coeffAdd P (acc2.getD (il.1 + jr.1) 0) (coeffMul P il.2 jr.2)))
      acc)
    (List.replicate (a.length + b.length - 1) 0)

/-- `Polynomial::multiply`: the initial `vec![Coeff(0); lhs.len() +
rhs.len() - 1]` underflows `usize` when both operands are empty, which
panics (`none`); otherwise convolve and `rem_cyclo`. -/
def pringMultiply (P : Int) (M : Nat) (a b : List Int) : Option (List Int) :=
  if a.length + b.length = 0 then none
  else some (remCyclo P M (pringMulRaw P a b))

/-- `impl PartialEq for Polynomial` (pring.rs lines 226-241): compare the
common prefix, then require the longer side's tail to be all zero. -/
def polyEqImpl (a b : List Int) : Bool :=
  let minLen := min a.length b.length
  if a.take minLen ≠ b.take minLen then false
  else if minLen < a.length then (a.drop minLen).all (· == 0)
  else if minLen < b.length then (b.drop minLen).all (· == 0)
  else true

/-- The `while d > 0 && coeffs[d - 1] == 0 { d -= 1 }` loop of
`Polynomial::degree` (identical in pring.rs lines 148-154 and
ckks-lib polynomial.rs lines 30-36), starting from `d`. -/
def degreeLoop (a : List Int) : Nat → Nat
  | 0 => 0
  | d + 1 => if a.getD d 0 = 0 then degreeLoop a d else d + 1

/-- `Polynomial::degree` of both implementations: run the loop from the
stored length. -/
def polyDegree (a : List Int) : Nat := degreeLoop a a.length

/-! ## fhe-core/src/rand/distributions.rs — `Uniform` -/

/-- `impl Distribution for Uniform<i64>` (lines 69-76): the raw CSPRNG
draw `rd` is reduced by `rem_euclid(end - start)` and shifted by `start`.
(The code computes the modulus as `end - start`, without `+ 1`.) -/
def uniformSample (rd start stop : Int) : Int :=
  rd % (stop - start) + start

/-! ## ckks-lib/src/polynomial.rs — the CKKS backend `Polynomial`

Coefficients are bare `i64` (`Int` here); every polynomial carries an
`f64` scale, idealised as `ℚ`. -/

/-- ckks-lib `Polynomial`: coefficient list plus scale. -/
structure CPoly where
  coeffs : List Int
  scale : ℚ
  deriving Repr, DecidableEq

/-- ckks-lib `Polynomial::add` (lines 54-71): the operand with the
*smaller* scale has its coefficients multiplied by the scale ratio and
rounded, and the result carries the *larger* scale. -/
def ckksAdd (a b : CPoly) : CPoly :=
  ⟨(List.range (max a.coeffs.length b.coeffs.length)).map fun i =>
      let x := a.coeffs.getD i 0
      let y := b.coeffs.getD i 0
      if b.scale ≤ a.scale then x + rround ((y : ℚ) * (a.scale / b.scale))
      else rround ((x : ℚ) * (b.scale / a.scale)) + y,
    max a.scale b.scale⟩

/-- ckks-lib `Polynomial::subtract` (lines 75-92): same scale handling as
`add`, with subtraction. -/
def ckksSubtract (a b : CPoly) : CPoly :=
  ⟨(List.range (max a.coeffs.length b.coeffs.length)).map fun i =>
      let x := a.coeffs.getD i 0
      let y := b.coeffs.getD i 0
      if b.scale ≤ a.scale then x - rround ((y : ℚ) * (a.scale / b.scale))
      else rround ((x : ℚ) * (b.scale / a.scale)) - y,
    max a.scale b.scale⟩

/-- ckks-lib `Polynomial::multiply_coeff` (lines 111-124): zip the two
coefficient lists, round each product divided by the smaller scale, and
carry the larger scale. -/
def ckksMultiplyCoeff (a b : CPoly) : CPoly :=
  ⟨List.zipWith (fun x y => rround ((x : ℚ) * (y : ℚ) / min a.scale b.scale))
      a.coeffs b.coeffs,
    max a.scale b.scale⟩

/-- The loop of ckks-lib `Polynomial::rem_cyclo` (lines 183-193):
as `cycloFold`, but the sign is the integer `k ∈ {1, -1}` and each slot
update is `(r[j] + coeff * k).rem_euclid(modulus)`. -/
def ckksCycloFoldLoop (q : Int) (m : Nat) :
    List Int → Nat → Int → List Int → List Int
  | [], _, _, r => r
  | c :: cs, j, k, r =>
    let r' := r.set j ((r.getD j 0 + c * k) % q)
    let j' := j + 1
    if m ≤ j' then ckksCycloFoldLoop q m cs 0 (-k) r'
    else ckksCycloFoldLoop q m cs j' k r'

/-- ckks-lib `Polynomial::rem_cyclo(n, modulus)`: always folds into a
fresh zero vector of length `2 ^ n` (no early return for short inputs),
keeping the scale. -/
def ckksRemCyclo (p : CPoly) (n : Nat) (q : Int) : CPoly :=
  ⟨ckksCycloFoldLoop q (2 ^ n) p.coeffs 0 1 (List.replicate (2 ^ n) 0),
    p.scale⟩

/-- ckks-lib `Polynomial::mod_reduce` (lines 199-208): map each
coefficient to `coeff % modulus` (Rust truncated `%`, `Int.tmod`), then
delete every zero residue. The scale is kept. (Rust `%` by zero panics;
the claims only quantify over non-zero moduli.) -/
def ckksModReduce (p : CPoly) (m : Int) : CPoly :=
  ⟨(p.coeffs.map (fun c => Int.tmod c m)).filter (fun c => c ≠ 0), p.scale⟩

/-! ## ckks-lib/src/ops.rs — `Encryptor::homomorphic_*`

In ops.rs a `Ciphertext` wraps one backend polynomial; each operation
applies the raw polynomial operation and then `mod_reduce` by the
configured modulus. -/

/-- `Encryptor::homomorphic_add`. -/
def homomorphicAdd (m : Int) (lhs rhs : CPoly) : CPoly :=
  ckksModReduce (ckksAdd lhs rhs) m

/-- `Encryptor::homomorphic_sub`. -/
def homomorphicSub (m : Int) (lhs rhs : CPoly) : CPoly :=
  ckksModReduce (ckksSubtract lhs rhs) m

/-- `Encryptor::homomorphic_mul`. -/
def homomorphicMul (m : Int) (lhs rhs : CPoly) : CPoly :=
  ckksModReduce (ckksMultiplyCoeff lhs rhs) m

/-! ## ckks-lib/src/key.rs — `generate_keys`

The function is parameterised by the outcome of the random sampling:
`sVals` are the secret-key draws, `p1Vals` the uniform draws for `p₁`,
and `eVals` the truncated-Gaussian draws (reals, rounded inside the
loop). The code builds `p₀` coefficient-wise over
`skey.coeffs.zip(p1.coeffs)`, sampling one noise value per position:
`p0_i = -p1_i * s_i + round(e_i)`. -/

structure KeyPair where
  p0 : CPoly
  p1 : CPoly
  s : CPoly

/-- ckks-lib `generate_keys` (lines 53-101) for a fixed sampling
outcome. -/
def generateKeys (sVals p1Vals : List Int) (eVals : List ℚ) : KeyPair :=
  let s : CPoly := ⟨sVals, 1⟩
  let p1 : CPoly := ⟨p1Vals, 1⟩
  let p0 : CPoly :=
    ⟨List.zipWith (fun p e => -p.2 * p.1 + rround e) (sVals.zip p1Vals) eVals, 1⟩
  ⟨p0, p1, s⟩

/-- Modelled from the spec: the public-key equation the spec states for
`generate_keys` — `p₀ := (−p₁) · s + e` computed **in the ring**
`Z_p[X]/(X^M + 1)` ("negation, multiply, add; fold and reduce mod p
automatically"), with the noise rounded to integers. Used only to compare
the code's `p₀` against the spec's formula. -/
def generateKeysSpecRingP0 (P : Int) (M : Nat)
    (sVals p1Vals : List Int) (eVals : List ℚ) : List Int :=
  let negP1 := polyNew P M (p1Vals.map Neg.neg)
  let prod := remCyclo P M (pringMulRaw P negP1 (polyNew P M sVals))
  pringAdd P prod (polyNew P M (eVals.map rround))

/-! ## fhe-operations/src/selectable_collection.rs -/

/-- A `SelectableItem`: one ciphertext plus its flag ciphertexts (the
Rust array `[C::Ciphertext; F]` becomes a list). -/
structure SelItem (Ct : Type) where
  ciphertext : Ct
  flags : List Ct

/-- The `for item in self.items.iter().skip(1)` loop of
`operate_many_where_flag`: each step multiplies the item's ciphertext by
its selected flag and folds with the designated ADD. `flags.get?`
models the `unwrap` on a missing flag index (panic = `none`). -/
def whereFlagLoop {Ct Op2 : Type} (op2 : Op2 → Ct → Ct → Ct)
    (addOp mulOp : Op2) (flagIndex : Nat) :
    List (SelItem Ct) → Ct → Option Ct
  | [], sum => some sum
  | it :: rest, sum =>
    (it.flags.get? flagIndex).bind fun flag =>
      whereFlagLoop op2 addOp mulOp flagIndex rest
        (op2 addOp sum (op2 mulOp it.ciphertext flag))

/-- `SelectableCollection::operate_many_where_flag` (lines 183-199):
`none` models the `assert!(!self.items.is_empty())` panic and the
flag-index `unwrap` panics. -/
def operateManyWhereFlag {Ct Op2 : Type} (op2 : Op2 → Ct → Ct → Ct)
    (addOp mulOp : Op2) (flagIndex : Nat) (items : List (SelItem Ct)) :
    Option Ct :=
  match items with
  | [] => none
  | first :: rest =>
    (first.flags.get? flagIndex).bind fun firstFlag =>
      whereFlagLoop op2 addOp mulOp flagIndex rest
        (op2 mulOp first.ciphertext firstFlag)

/-! ## fhe-exchange/src/lib.rs — batch exchange encoding

Serialisation of the scheme's ciphertext and operation types is
abstracted as a codec over byte lists; `bincode`'s `Vec` encoding is a
length prefix followed by the element encodings, with the length codec
abstracted the same way. -/

/-- A binary codec: an encoder and a streaming decoder returning the
value and the unconsumed rest. -/
structure Codec (α : Type) where
  enc : α → List Nat
  dec : List Nat → Option (α × List Nat)

/-- A codec is lawful when decoding an encoding returns the value and
leaves the trailing bytes untouched. -/
def Codec.Lawful {α : Type} (c : Codec α) : Prop :=
  ∀ x rest, c.dec (c.enc x ++ rest) = some (x, rest)

/-- A `SingleOpItem`: `(lhs, rhs, operation)`. -/
structure SingleOpItem (Ct Op2 : Type) where
  lhs : Ct
  rhs : Ct
  operation : Op2

/-- `impl Encode for SingleOpItem` (lines 63-70): lhs bytes, then rhs
bytes, then the operation tag. -/
def encodeItem {Ct Op2 : Type} (cc : Codec Ct) (co : Codec Op2)
    (it : SingleOpItem Ct Op2) : List Nat :=
  cc.enc it.lhs ++ cc.enc it.rhs ++ co.enc it.operation

/-- `impl Decode for SingleOpItem` (lines 78-89): decode lhs, rhs, then
the operation, in order. -/
def decodeItem {Ct Op2 : Type} (cc : Codec Ct) (co : Codec Op2)
    (bytes : List Nat) : Option (SingleOpItem Ct Op2 × List Nat) :=
  (cc.dec bytes).bind fun (l, r1) =>
    (cc.dec r1).bind fun (r, r2) =>
      (co.dec r2).map fun (op, r3) => (⟨l, r, op⟩, r3)

/-- Decoding of `n` consecutive items (the element loop of `Vec::decode`). -/
def decodeItems {Ct Op2 : Type} (cc : Codec Ct) (co : Codec Op2) :
    Nat → List Nat → Option (List (SingleOpItem Ct Op2) × List Nat)
  | 0, bytes => some ([], bytes)
  | n + 1, bytes =>
    (decodeItem cc co bytes).bind fun (it, rest) =>
      (decodeItems cc co n rest).map fun (its, r2) => (it :: its, r2)

/-- `impl Encode for SingleOpsData`, which delegates to `Vec::encode`:
the batch length followed by the concatenated item encodings. -/
def encodeBatch {Ct Op2 : Type} (cl : Codec Nat) (cc : Codec Ct)
    (co : Codec Op2) (items : List (SingleOpItem Ct Op2)) : List Nat :=
  cl.enc items.length ++ (items.map (encodeItem cc co)).flatten

/-- `impl Decode for SingleOpsData`, which delegates to `Vec::decode`:
read the length, then that many items. -/
def decodeBatch {Ct Op2 : Type} (cl : Codec Nat) (cc : Codec Ct)
    (co : Codec Op2) (bytes : List Nat) :
    Option (List (SingleOpItem Ct Op2) × List Nat) :=
  (cl.dec bytes).bind fun (n, rest) => decodeItems cc co n rest

/-! ## ckks-lib/src/cipher/scaled.rs — `ScaledPolynomial<P, N>`

A fhe-core ring polynomial (stored coefficient list) paired with an
`f64` scale, idealised as `ℚ`. -/

/-- `ScaledPolynomial`: ring polynomial plus scale. -/
structure SPoly where
  p : List Int
  scale : ℚ
  deriving Repr, DecidableEq

/-- `ScaledPolynomial::add` (scaled.rs lines 76-93): the operand with the
*larger* scale has its coefficients divided by the scale ratio (times
`rhs.scale / lhs.scale` when `lhs.scale ≥ rhs.scale`) and rounded; the
summed raw coefficients go through `Polynomial::new` (reduce mod `P` and
fold), and the result carries the *smaller* scale. -/
def scaledAdd (P : Int) (M : Nat) (a b : SPoly) : SPoly :=
  ⟨polyNew P M ((List.range (max a.p.length b.p.length)).map fun i =>
      let l := a.p.getD i 0
      let r := b.p.getD i 0
      if b.scale ≤ a.scale then rround ((l : ℚ) * (b.scale / a.scale)) + r
      else l + rround ((r : ℚ) * (a.scale / b.scale))),
    min a.scale b.scale⟩

/-! ## Helper lemmas -/

/-- The `degree` loop returns `i + 1` when `a[i] ≠ 0` and everything
above index `i` is zero. -/
lemma degreeLoop_eq_succ (a : List Int) (i : Nat) (hnz : a.getD i 0 ≠ 0)
    (htop : ∀ j, i < j → a.getD j 0 = 0) :
    ∀ d, i < d → degreeLoop a d = i + 1 := by
  intro d
  induction d with
  | zero => omega
  | succ d ih =>
    intro h
    by_cases hd : d = i
    · subst hd
      simp only [degreeLoop]
      rw [if_neg hnz]
    · have hlt : i < d := by omega
      simp only [degreeLoop]
      rw [if_pos (htop d hlt)]
      exact ih hlt

/-- The executable `Rat.floor` agrees with the `Int.floor` of `ℚ`. -/
lemma ratFloor_eq_intFloor (q : ℚ) : q.floor = ⌊q⌋ :=
  (Rat.floor_def' q).trans Rat.floor_def.symm

/-- Bound on `⌊y + 1/2⌋` for `0 ≤ y ≤ β`. -/
lemma floor_half_bounds (y : ℚ) (β : ℤ) (h0 : 0 ≤ y) (h1 : y ≤ (β : ℚ)) :
    0 ≤ ⌊y + 1/2⌋ ∧ ⌊y + 1/2⌋ ≤ β := by
  constructor
  · exact Int.floor_nonneg.mpr (by linarith)
  · have hle : ⌊y + 1/2⌋ ≤ ⌊(β : ℚ) + 1/2⌋ := Int.floor_le_floor (by linarith)
    have heq : ⌊(β : ℚ) + 1/2⌋ = β := by
      rw [Int.floor_eq_iff]
      refine ⟨by linarith, by linarith⟩
    omega

/-- `rround` is the identity on integers. -/
lemma rround_intCast (z : ℤ) : rround (z : ℚ) = z := by
  unfold rround
  split
  next h =>
    rw [ratFloor_eq_intFloor, Int.floor_eq_iff]
    refine ⟨by linarith, by linarith⟩
  next h =>
    rw [ratFloor_eq_intFloor]
    have hz : ⌊-(z : ℚ) + 1/2⌋ = -z := by
      rw [Int.floor_eq_iff]
      refine ⟨?_, ?_⟩ <;> push_cast <;> linarith
    omega

/-- `rround` stays within an integer bound `β` that bounds its input. -/
lemma abs_rround_le (x : ℚ) (β : ℤ) (h : |x| ≤ (β : ℚ)) :
    |rround x| ≤ β := by
  rw [abs_le] at h
  unfold rround
  split
  next hx =>
    rw [ratFloor_eq_intFloor]
    have hb := floor_half_bounds x β hx h.2
    rw [abs_le]
    omega
  next hx =>
    push_neg at hx
    rw [ratFloor_eq_intFloor]
    have hb := floor_half_bounds (-x) β (by linarith) (by linarith)
    rw [abs_le]
    omega

/-! ## Claim C3 — coefficient canonical-representative invariant -/

/-- C3: the claim is right and the code is wrong. Addition, subtraction
and multiplication of canonical representatives stay in `[0, P)`, but
`Coeff::neg` returns `P - self.0`, so negating the zero coefficient of
`Z/7Z` yields the stored value `7`, which is outside `[0, 7)` — contrary
to the claim (and to the code's own comment that the result is the least
non-negative representative). -/
theorem coeffNeg_zero_escapes_range :
    coeffAdd 7 0 0 = 0 ∧ coeffSub 7 0 0 = 0 ∧ coeffMul 7 0 0 = 0 ∧
    coeffNeg 7 0 = 7 ∧ ¬(coeffNeg 7 0 < 7) := by decide

/-! ## Claim C4 — inclusive-range uniform sampling -/

/-- C4: the claim is right and the code is wrong. `Uniform::sample`
reduces by `end - start` (not `end - start + 1`), so over the inclusive
range `-1..=1` it can only produce `-1` and `0`: the upper endpoint `1`
is never returned, and the ternary secret-key sampling never draws the
coefficient `1`. -/
theorem uniformSample_never_returns_end :
    (∀ rd : Int, uniformSample rd (-1) 1 ≠ 1) ∧
    uniformSample 0 (-1) 1 = -1 ∧ uniformSample 1 (-1) 1 = 0 := by
  refine ⟨fun rd => ?_, by decide, by decide⟩
  have h0 : (0 : Int) ≤ rd % 2 := Int.emod_nonneg rd (by decide)
  have h1 : rd % 2 < 2 := Int.emod_lt_of_pos rd (by decide)
  have h2 : uniformSample rd (-1) 1 = rd % 2 + (-1) := by
    norm_num [uniformSample]
  rw [h2]
  omega

/-! ## Claim C6 — `degree()` -/

/-- C6 counterexample: for the polynomial `[3]` the highest index with a
non-zero coefficient is `0`, but `degree()` returns `1`, not `0`. -/
theorem polyDegree_singleton_off_by_one :
    ([3] : List Int).getD 0 0 ≠ 0 ∧ ([3] : List Int).length = 1 ∧
    polyDegree [3] ≠ 0 := by decide

/-- C6 amended: on every polynomial with a non-zero coefficient,
`degree()` (both the fhe-core and the ckks-lib implementation run this
loop) returns the highest index carrying a non-zero coefficient *plus
one* — equivalently, the stored length after trimming trailing zeros —
not that index itself. -/
theorem polyDegree_eq_succ_highest_index (a : List Int) (i : Nat)
    (hi : i < a.length) (hnz : a.getD i 0 ≠ 0)
    (htop : ∀ j, i < j → a.getD j 0 = 0) :
    polyDegree a = i + 1 :=
  degreeLoop_eq_succ a i hnz htop a.length hi

/-- C6 witness: `[5, 0]` has its highest non-zero coefficient at index 0
and `degree()` returns `0 + 1`. -/
theorem polyDegree_eq_succ_highest_index_witness :
    polyDegree [5, 0] = 0 + 1 := by
  refine polyDegree_eq_succ_highest_index [5, 0] 0 (by decide) (by decide) ?_
  intro j hj
  match j, hj with
  | 1, _ => rfl
  | (n + 2), _ => rfl

/-! ## Claim C10 — `mod_reduce` compaction -/

/-- C10: `mod_reduce` maps every coefficient to its truncated remainder
`coeff % m` and deletes every zero residue (so positions shift), keeps
the scale, sends `[1,2,3,4,5]` mod 3 to `[1,2,1,2]`, and the homomorphic
add/sub/mul of ops.rs each apply exactly this compaction to the raw
operation result. -/
theorem modReduce_drops_zero_residues :
    (∀ (m : Int) (p : CPoly), m ≠ 0 →
      (ckksModReduce p m).coeffs =
        p.coeffs.filterMap (fun c =>
          if Int.tmod c m = 0 then none else some (Int.tmod c m)) ∧
      (ckksModReduce p m).scale = p.scale) ∧
    (ckksModReduce ⟨[1, 2, 3, 4, 5], 1⟩ 3).coeffs = [1, 2, 1, 2] ∧
    (∀ (m : Int) (lhs rhs : CPoly),
      homomorphicAdd m lhs rhs = ckksModReduce (ckksAdd lhs rhs) m ∧
      homomorphicSub m lhs rhs = ckksModReduce (ckksSubtract lhs rhs) m ∧
      homomorphicMul m lhs rhs = ckksModReduce (ckksMultiplyCoeff lhs rhs) m) := by
  refine ⟨fun m p _ => ⟨?_, rfl⟩, by decide, fun m lhs rhs => ⟨rfl, rfl, rfl⟩⟩
  obtain ⟨cs, sc⟩ := p
  simp only [ckksModReduce]
  induction cs with
  | nil => rfl
  | cons c cs ih =>
    by_cases h : Int.tmod c m = 0 <;>
      simpa [List.filter_cons, List.filterMap_cons, h] using ih

/-- C10 witness. -/
theorem modReduce_drops_zero_residues_witness :
    (ckksModReduce ⟨[2, 3], 1⟩ 2).coeffs = [1] ∧
    (ckksModReduce ⟨[2, 3], 1⟩ 2).scale = 1 := by
  have h := modReduce_drops_zero_residues.1 2 ⟨[2, 3], 1⟩ (by decide)
  exact ⟨h.1.trans (by decide), h.2⟩

/-! ## Claim C5 — scale alignment in scaled addition -/

/-- C5 counterexample: the CKKS-backend `Polynomial::add` used by the
encryptor does the opposite of the claim at `([2], scale 2) + ([3],
scale 1)`: the *lower*-scaled operand is multiplied up by the ratio 2
(yielding coefficient `2 + round(3·2) = 8`) and the result carries the
*higher* scale 2, not `min(2, 1) = 1`. -/
theorem ckksAdd_carries_higher_scale :
    (ckksAdd ⟨[2], 2⟩ ⟨[3], 1⟩).scale = 2 ∧
    (ckksAdd ⟨[2], 2⟩ ⟨[3], 1⟩).coeffs = [8] ∧
    min (2 : ℚ) 1 ≠ 2 := by
  refine ⟨rfl, ?_, by norm_num⟩
  have h1 : (ckksAdd ⟨[2], 2⟩ ⟨[3], 1⟩).coeffs
      = [2 + rround (((3 : ℤ) : ℚ) * ((2 : ℚ) / (1 : ℚ)))] := rfl
  have h2 : ((3 : ℤ) : ℚ) * ((2 : ℚ) / (1 : ℚ)) = ((6 : ℤ) : ℚ) := by norm_num
  rw [h1, h2, rround_intCast]
  decide

/-- C5 amended: `ScaledPolynomial::add` behaves as the claim states on
*every* pair of operands — whichever side carries the higher scale is
divided down by the scale ratio and rounded (the left operand when
`lhs.scale ≥ rhs.scale`, the right operand otherwise), the result
carrying `min` of the scales, the pointwise sums passing through
`Polynomial::new`; the CKKS-backend `Polynomial::add`, however, does the
opposite on every pair — whichever side carries the *lower* scale is
multiplied *up* by the scale ratio, and its result carries `max` of the
scales. -/
theorem scaled_add_scale_rules :
    (∀ (P : Int) (M : Nat) (a b : SPoly),
      (scaledAdd P M a b).scale = min a.scale b.scale) ∧
    (∀ a b : CPoly, (ckksAdd a b).scale = max a.scale b.scale) ∧
    (∀ (P : Int) (M : Nat) (a b : SPoly), b.scale ≤ a.scale →
      (scaledAdd P M a b).p =
        polyNew P M ((List.range (max a.p.length b.p.length)).map fun i =>
          rround ((a.p.getD i 0 : ℚ) * (b.scale / a.scale)) + b.p.getD i 0)) ∧
    (∀ (P : Int) (M : Nat) (a b : SPoly), a.scale < b.scale →
      (scaledAdd P M a b).p =
        polyNew P M ((List.range (max a.p.length b.p.length)).map fun i =>
          a.p.getD i 0 + rround ((b.p.getD i 0 : ℚ) * (a.scale / b.scale)))) ∧
    (∀ a b : CPoly, b.scale ≤ a.scale →
      (ckksAdd a b).coeffs =
        (List.range (max a.coeffs.length b.coeffs.length)).map fun i =>
          a.coeffs.getD i 0 + rround ((b.coeffs.getD i 0 : ℚ) * (a.scale / b.scale))) ∧
    (∀ a b : CPoly, a.scale < b.scale →
      (ckksAdd a b).coeffs =
        (List.range (max a.coeffs.length b.coeffs.length)).map fun i =>
          rround ((a.coeffs.getD i 0 : ℚ) * (b.scale / a.scale)) + b.coeffs.getD i 0) := by
  refine ⟨fun P M a b => rfl, fun a b => rfl, fun P M a b h => ?_,
    fun P M a b h => ?_, fun a b h => ?_, fun a b h => ?_⟩
  · simp only [scaledAdd, if_pos h]
  · simp only [scaledAdd, if_neg (not_le.mpr h)]
  · simp only [ckksAdd, if_pos h]
  · simp only [ckksAdd, if_neg (not_le.mpr h)]

/-- C5 witness: the `ScaledPolynomial::add` coefficient law in both
branches at `([2], scale 2)` vs `([3], scale 1)` in `Z/7Z[X]/(X^4+1)`:
whichever side carries scale 2 is divided down to `round(2·(1/2)) = 1`
and added to `3`, giving `4`, with result scale `min = 1`; in the
CKKS-backend `add` of the same pair with the *left* operand carrying the
lower scale, `3` is multiplied up to `round(3·2) = 6` and added to `2`,
giving `8`. -/
theorem scaled_add_scale_rules_witness :
    (scaledAdd 7 4 ⟨[2], 2⟩ ⟨[3], 1⟩).p = [4] ∧
    (scaledAdd 7 4 ⟨[3], 1⟩ ⟨[2], 2⟩).p = [4] ∧
    (scaledAdd 7 4 ⟨[2], 2⟩ ⟨[3], 1⟩).scale = 1 ∧
    (ckksAdd ⟨[3], 1⟩ ⟨[2], 2⟩).coeffs = [8] := by
  have h := scaled_add_scale_rules.2.2.1 7 4 ⟨[2], 2⟩ ⟨[3], 1⟩ (by norm_num)
  have hlt := scaled_add_scale_rules.2.2.2.1 7 4 ⟨[3], 1⟩ ⟨[2], 2⟩ (by norm_num)
  have hck := scaled_add_scale_rules.2.2.2.2.2 ⟨[3], 1⟩ ⟨[2], 2⟩ (by norm_num)
  have h2 : ((2 : ℤ) : ℚ) * ((1 : ℚ) / (2 : ℚ)) = ((1 : ℤ) : ℚ) := by norm_num
  have h3 : ((3 : ℤ) : ℚ) * ((2 : ℚ) / (1 : ℚ)) = ((6 : ℤ) : ℚ) := by norm_num
  have h12 : polyNew 7 4 [rround (((2 : ℤ) : ℚ) * ((1 : ℚ) / (2 : ℚ))) + 3] = [4] := by
    rw [h2, rround_intCast]
    decide
  have h12b : polyNew 7 4 [3 + rround (((2 : ℤ) : ℚ) * ((1 : ℚ) / (2 : ℚ)))] = [4] := by
    rw [h2, rround_intCast]
    decide
  have h68 : [rround (((3 : ℤ) : ℚ) * ((2 : ℚ) / (1 : ℚ))) + 2] = ([8] : List Int) := by
    rw [h3, rround_intCast]
    decide
  refine ⟨?_, ?_, ?_, ?_⟩
  · rw [h]
    exact h12
  · rw [hlt]
    exact h12b
  · have hs := scaled_add_scale_rules.1 7 4 ⟨[2], (2 : ℚ)⟩ ⟨[3], 1⟩
    rw [hs]
    norm_num
  · rw [hck]
    exact h68

/-! ## Claim C7 — multiplication with an empty operand -/

/-- `getD` on an all-zero vector is zero. -/
lemma getD_replicate_zero (n j : Nat) :
    (List.replicate n (0 : Int)).getD j 0 = 0 := by
  induction n generalizing j with
  | zero => rfl
  | succ n ih =>
    cases j with
    | zero => rfl
    | succ j => exact ih j

/-- Folding an all-zero coefficient list into an all-zero accumulator
leaves it all zero. -/
lemma cycloFold_replicate_zero (P : Int) (M : Nat) :
    ∀ (n j : Nat) (k : Bool),
      cycloFold P M (List.replicate n 0) j k (List.replicate M 0) =
        List.replicate M 0 := by
  intro n
  induction n with
  | zero => intro j k; rfl
  | succ n ih =>
    intro j k
    show cycloFold P M ((0 : Int) :: List.replicate n 0) j k _ = _
    rw [cycloFold]
    cases k <;>
      simp only [Bool.false_eq_true, if_true, if_false, coeffAdd, coeffSub,
        getD_replicate_zero, add_zero, sub_zero, Int.zero_emod,
        List.set_replicate_self] <;>
      split <;> first | exact ih 0 _ | exact ih (j + 1) _

/-- A list that folds over no coefficients is returned by `List.foldl`
unchanged. -/
lemma foldl_self {α β : Type} (l : List α) (b : β) :
    l.foldl (fun acc _ => acc) b = b := by
  induction l generalizing b with
  | nil => rfl
  | cons x xs ih => exact ih b

/-- The raw convolution with an empty left operand is the all-zero
vector of length `len(b) - 1`. -/
lemma pringMulRaw_nil_left (P : Int) (b : List Int) :
    pringMulRaw P [] b = List.replicate (b.length - 1) 0 := by
  simp [pringMulRaw]

/-- The raw convolution with an empty right operand is the all-zero
vector of length `len(a) - 1`. -/
lemma pringMulRaw_nil_right (P : Int) (a : List Int) :
    pringMulRaw P a [] = List.replicate (a.length - 1) 0 := by
  simp only [pringMulRaw, List.enum_nil, List.foldl_nil, List.length_nil,
    Nat.add_zero]
  exact foldl_self _ _

/-- The ring's own equality accepts an all-zero vector as the empty
polynomial. -/
lemma polyEqImpl_replicate_zero (n : Nat) :
    polyEqImpl (List.replicate n 0) [] = true := by
  cases n with
  | zero => rfl
  | succ n =>
    simp [polyEqImpl, List.all_eq_true]

/-- C7 counterexample: with *both* operands empty, `Polynomial::multiply`
panics — `lhs.len() + rhs.len() - 1` underflows `usize` — rather than
returning the empty polynomial as the claim states. -/
theorem pringMultiply_both_empty_panics :
    pringMultiply 7 4 ([] : List Int) [] = none := rfl

/-- C7 amended: if *exactly one* operand is empty, `Polynomial::multiply`
does not panic and returns a polynomial equal, under the ring's
trailing-zero-insensitive equality, to the empty polynomial; when both
operands are empty the length computation underflows and the call
panics. -/
theorem pringMultiply_one_empty_yields_empty (P : Int) (M : Nat)
    (a b : List Int) (h : a = [] ∨ b = []) (hne : ¬(a = [] ∧ b = [])) :
    ∃ r, pringMultiply P M a b = some r ∧ polyEqImpl r [] = true := by
  have key : ∀ L : Nat, polyEqImpl (remCyclo P M (List.replicate L 0)) [] = true := by
    intro L
    unfold remCyclo
    split
    · exact polyEqImpl_replicate_zero L
    · rw [cycloFold_replicate_zero]
      exact polyEqImpl_replicate_zero M
  rcases h with rfl | rfl
  · have hb : b ≠ [] := fun hb => hne ⟨rfl, hb⟩
    refine ⟨remCyclo P M (pringMulRaw P [] b), ?_, ?_⟩
    · unfold pringMultiply
      rw [if_neg]
      simpa [List.length_eq_zero] using hb
    · rw [pringMulRaw_nil_left]
      exact key _
  · have ha : a ≠ [] := fun ha => hne ⟨ha, rfl⟩
    refine ⟨remCyclo P M (pringMulRaw P a []), ?_, ?_⟩
    · unfold pringMultiply
      rw [if_neg]
      simpa [List.length_eq_zero] using ha
    · rw [pringMulRaw_nil_right]
      exact key _

/-- C7 witness: `[] * [1, 2]` in `Z/7Z[X]/(X^4+1)`. -/
theorem pringMultiply_one_empty_yields_empty_witness :
    ∃ r, pringMultiply 7 4 ([] : List Int) [1, 2] = some r ∧
      polyEqImpl r [] = true :=
  pringMultiply_one_empty_yields_empty 7 4 [] [1, 2] (Or.inl rfl)
    (fun hc => by cases hc.2)

/-! ## Claim C8 — `operate_many_where_flag` -/

/-- The item-loop of `operate_many_where_flag` is the left fold of the
per-item MUL products under the designated ADD. -/
lemma whereFlagLoop_eq_foldl {Ct Op2 : Type} (op2 : Op2 → Ct → Ct → Ct)
    (addOp mulOp : Op2) (flagIndex : Nat) :
    ∀ (rest : List (SelItem Ct)) (sum : Ct),
      (∀ it ∈ rest, flagIndex < it.flags.length) →
      whereFlagLoop op2 addOp mulOp flagIndex rest sum =
        some (rest.foldl
          (fun acc it =>
            op2 addOp acc
              (op2 mulOp it.ciphertext (it.flags.getD flagIndex it.ciphertext)))
          sum) := by
  intro rest
  induction rest with
  | nil => intro sum _; rfl
  | cons it rest ih =>
    intro sum hflags
    have hlt : flagIndex < it.flags.length := hflags it (by simp)
    have hget : it.flags.get? flagIndex =
        some (it.flags.getD flagIndex it.ciphertext) := by
      rw [List.get?_eq_getElem?, List.getElem?_eq_getElem hlt]
      simp [List.getD_eq_getElem?_getD, List.getElem?_eq_getElem hlt]
    rw [whereFlagLoop, hget]
    exact ih _ (fun x hx => hflags x (by simp [hx]))

/-- C8: on a non-empty collection whose items all carry more than
`flag_index` flags, `operate_many_where_flag` returns the left fold, in
item order, by the designated ADD of the products
`MUL(item.ciphertext, item.flags[flag_index])`, starting from item 0's
product; on the empty collection it panics (`none`). -/
theorem operateManyWhereFlag_fold_law {Ct Op2 : Type}
    (op2 : Op2 → Ct → Ct → Ct) (addOp mulOp : Op2) (flagIndex : Nat) :
    (operateManyWhereFlag op2 addOp mulOp flagIndex [] = none) ∧
    (∀ (first : SelItem Ct) (rest : List (SelItem Ct)),
      (∀ it ∈ first :: rest, flagIndex < it.flags.length) →
      operateManyWhereFlag op2 addOp mulOp flagIndex (first :: rest) =
        some (rest.foldl
          (fun acc it =>
            op2 addOp acc
              (op2 mulOp it.ciphertext (it.flags.getD flagIndex it.ciphertext)))
          (op2 mulOp first.ciphertext
            (first.flags.getD flagIndex first.ciphertext)))) := by
  refine ⟨rfl, fun first rest hflags => ?_⟩
  have hlt : flagIndex < first.flags.length := hflags first (by simp)
  have hget : first.flags.get? flagIndex =
      some (first.flags.getD flagIndex first.ciphertext) := by
    rw [List.get?_eq_getElem?, List.getElem?_eq_getElem hlt]
    simp [List.getD_eq_getElem?_getD, List.getElem?_eq_getElem hlt]
  rw [operateManyWhereFlag, hget]
  exact whereFlagLoop_eq_foldl op2 addOp mulOp flagIndex rest _
    (fun x hx => hflags x (by simp [hx]))

/-- C8 witness: two integer items under the toy scheme
`op2 true = (+), op2 false = (*)`: flag 0 selects only the first item,
`2·1 + 3·0 = 2`. -/
theorem operateManyWhereFlag_fold_law_witness :
    operateManyWhereFlag (fun (b : Bool) (x y : Int) => if b then x + y else x * y)
      true false 0 [⟨2, [1, 0]⟩, ⟨3, [0, 1]⟩] = some 2 := by
  have h := (operateManyWhereFlag_fold_law
      (fun (b : Bool) (x y : Int) => if b then x + y else x * y)
      true false 0).2 ⟨2, [1, 0]⟩ [⟨3, [0, 1]⟩] ?_
  · rw [h]
    rfl
  · intro it hit
    simp only [List.mem_cons, List.not_mem_nil, or_false] at hit
    rcases hit with rfl | rfl <;> decide

/-! ## Claim C9 — batch-exchange round trip -/

/-- Decoding one item consumes exactly its encoding. -/
lemma decodeItem_encodeItem {Ct Op2 : Type} (cc : Codec Ct) (co : Codec Op2)
    (hc : cc.Lawful) (ho : co.Lawful) (it : SingleOpItem Ct Op2)
    (rest : List Nat) :
    decodeItem cc co (encodeItem cc co it ++ rest) = some (it, rest) := by
  have hcE : ∀ x rest, cc.dec (cc.enc x ++ rest) = some (x, rest) := hc
  have hoE : ∀ x rest, co.dec (co.enc x ++ rest) = some (x, rest) := ho
  simp [decodeItem, encodeItem, List.append_assoc, hcE, hoE]

/-- Decoding `n` items consumes exactly the concatenation of their
encodings. -/
lemma decodeItems_encodeItems {Ct Op2 : Type} (cc : Codec Ct)
    (co : Codec Op2) (hc : cc.Lawful) (ho : co.Lawful) :
    ∀ (items : List (SingleOpItem Ct Op2)) (rest : List Nat),
      decodeItems cc co items.length
        ((items.map (encodeItem cc co)).flatten ++ rest) =
      some (items, rest) := by
  intro items
  induction items with
  | nil => intro rest; rfl
  | cons it its ih =>
    intro rest
    show decodeItems cc co (its.length + 1) _ = _
    rw [List.map_cons, List.flatten_cons, List.append_assoc, decodeItems]
    simp [decodeItem_encodeItem cc co hc ho, ih]

/-- C9: given lossless codecs for the ciphertext type, the operation
type, and the length prefix, each batch item is serialised as the lhs
bytes, then the rhs bytes, then the op2 tag, and decoding the encoding
of any batch returns the same items in the same order (with the trailing
bytes untouched). -/
theorem batch_encode_decode_roundtrip {Ct Op2 : Type} (cl : Codec Nat)
    (cc : Codec Ct) (co : Codec Op2)
    (hl : cl.Lawful) (hc : cc.Lawful) (ho : co.Lawful) :
    (∀ it : SingleOpItem Ct Op2,
      encodeItem cc co it =
        cc.enc it.lhs ++ cc.enc it.rhs ++ co.enc it.operation) ∧
    (∀ (items : List (SingleOpItem Ct Op2)) (rest : List Nat),
      decodeBatch cl cc co (encodeBatch cl cc co items ++ rest) =
        some (items, rest)) := by
  refine ⟨fun it => rfl, fun items rest => ?_⟩
  have hlE : ∀ x rest, cl.dec (cl.enc x ++ rest) = some (x, rest) := hl
  unfold decodeBatch encodeBatch
  rw [List.append_assoc, hlE, Option.some_bind]
  exact decodeItems_encodeItems cc co hc ho items rest

/-- The one-byte-per-value toy codec used to witness the round trip. -/
def unitCodec : Codec Nat :=
  ⟨fun n => [n], fun bytes =>
    match bytes with
    | [] => none
    | b :: r => some (b, r)⟩

/-- The toy codec is lossless. -/
lemma unitCodec_lawful : unitCodec.Lawful := fun _ _ => rfl

/-- C9 witness: a two-item batch over the toy codec decodes back to
itself. -/
theorem batch_encode_decode_roundtrip_witness :
    decodeBatch unitCodec unitCodec unitCodec
        (encodeBatch unitCodec unitCodec unitCodec
          [⟨2, 3, 0⟩, ⟨5, 2, 1⟩] ++ []) =
      some ([⟨2, 3, 0⟩, ⟨5, 2, 1⟩], []) :=
  (batch_encode_decode_roundtrip unitCodec unitCodec unitCodec
      unitCodec_lawful unitCodec_lawful unitCodec_lawful).2
    [⟨2, 3, 0⟩, ⟨5, 2, 1⟩] []

/-! ## Claim C2 — the public-key equation of `generate_keys` -/

/-- Pointwise description of the `zip`-`map` that builds `p₀`. -/
lemma p0_zipWith_getD :
    ∀ (s p1 : List Int) (e : List ℚ) (i : Nat),
      i < s.length → i < p1.length → i < e.length →
      (List.zipWith (fun p x => -p.2 * p.1 + rround x) (s.zip p1) e).getD i 0 =
        -(p1.getD i 0) * s.getD i 0 + rround (e.getD i 0)
  | [], _, _, i, hi, _, _ => absurd hi (by simp)
  | _ :: _, [], _, i, _, hi, _ => absurd hi (by simp)
  | _ :: _, _ :: _, [], i, _, _, hi => absurd hi (by simp)
  | a :: s, b :: p1, x :: e, 0, _, _, _ => rfl
  | a :: s, b :: p1, x :: e, i + 1, h1, h2, h3 => by
    simp only [List.zip_cons_cons, List.zipWith_cons_cons, List.getD_cons_succ]
    exact p0_zipWith_getD s p1 e i (by simpa using h1) (by simpa using h2)
      (by simpa using h3)

/-- C2 counterexample: `generate_keys` computes `p₀` coefficient-wise
(`p0_i = -p1_i * s_i + round(e_i)`), not as the ring product
`(-p₁)·s + e` modulo `X^N+1` with mod-`p` reduction. For the possible
sampling outcome `s = [-1,-1]`, `p₁ = [1,1]`, `e = [0,0]` over
`p = 7, N = 2` the code yields `[1,1]` while the spec's ring formula
yields `[0,2]`; and for `s = [0]`, `p₁ = [6]`, `e = [-3]` the code
yields the negative coefficient `-3`, so no mod-`p` reduction happens
either. -/
theorem generateKeys_p0_not_ring_product :
    (generateKeys [-1, -1] [1, 1] [0, 0]).p0.coeffs = [1, 1] ∧
    generateKeysSpecRingP0 7 2 [-1, -1] [1, 1] [0, 0] = [0, 2] ∧
    ([1, 1] : List Int) ≠ [0, 2] ∧
    (generateKeys [0] [6] [-3]).p0.coeffs = [-3] ∧
    ¬(0 ≤ (-3 : Int)) := by
  have hz : (0 : ℚ) = ((0 : ℤ) : ℚ) := by norm_num
  refine ⟨?_, ?_, by decide, ?_, by decide⟩
  · have h1 : (generateKeys [-1, -1] [1, 1] [0, 0]).p0.coeffs
        = [-1 * -1 + rround 0, -1 * -1 + rround 0] := rfl
    rw [h1, hz, rround_intCast]
    decide
  · unfold generateKeysSpecRingP0
    rw [hz]
    simp only [List.map_cons, List.map_nil, rround_intCast]
    decide
  · have h1 : (generateKeys [0] [6] [-3]).p0.coeffs
        = [-6 * 0 + rround (-3)] := rfl
    have h3 : (-3 : ℚ) = ((-3 : ℤ) : ℚ) := by norm_num
    rw [h1, h3, rround_intCast]
    decide

/-- C2 amended: for every fixed outcome of the random sampling (secret
draws `sVals`, uniform draws `p1Vals`, truncated-Gaussian draws `eVals`
of matching length), `generate_keys` returns `s` and `p₁` verbatim and
builds `p₀` *coefficient-wise*: `p0_i = -p1_i · s_i + round(e_i)`,
with no ring convolution and no mod-`p` reduction; the noise added at
each position — the difference between `p0_i` and `-p1_i · s_i` — stays
within the truncation bound `β = 19` whenever the Gaussian draw does. -/
theorem generateKeys_p0_pointwise (sVals p1Vals : List Int) (eVals : List ℚ)
    (h1 : p1Vals.length = sVals.length) (h2 : eVals.length = sVals.length) :
    (generateKeys sVals p1Vals eVals).s.coeffs = sVals ∧
    (generateKeys sVals p1Vals eVals).p1.coeffs = p1Vals ∧
    (∀ i, i < sVals.length →
      (generateKeys sVals p1Vals eVals).p0.coeffs.getD i 0 =
        -(p1Vals.getD i 0) * sVals.getD i 0 + rround (eVals.getD i 0)) ∧
    (∀ i, i < sVals.length → |eVals.getD i 0| ≤ (19 : ℚ) →
      |(generateKeys sVals p1Vals eVals).p0.coeffs.getD i 0 -
        -(p1Vals.getD i 0) * sVals.getD i 0| ≤ 19) := by
  have hpt : ∀ i, i < sVals.length →
      (generateKeys sVals p1Vals eVals).p0.coeffs.getD i 0 =
        -(p1Vals.getD i 0) * sVals.getD i 0 + rround (eVals.getD i 0) := by
    intro i hi
    exact p0_zipWith_getD sVals p1Vals eVals i hi (h1 ▸ hi) (h2 ▸ hi)
  refine ⟨rfl, rfl, hpt, fun i hi hb => ?_⟩
  rw [hpt i hi]
  have := abs_rround_le (eVals.getD i 0) 19 hb
  simpa using this

/-- Evaluation of `rround` at one half. -/
lemma rround_half : rround ((1 : ℚ)/2) = 1 := by
  unfold rround
  rw [if_pos (by norm_num)]
  have h : (1 : ℚ)/2 + 1/2 = ((1 : ℤ) : ℚ) := by norm_num
  rw [h, ratFloor_eq_intFloor, Int.floor_intCast]

/-- C2 witness: one coefficient, `s = [-1]`, `p₁ = [1]`, Gaussian draw
`1/2`: `p0_0 = -1·(-1) + round(1/2) = 2`, and the added noise stays
within `β = 19`. -/
theorem generateKeys_p0_pointwise_witness :
    (generateKeys [-1] [1] [(1 : ℚ)/2]).p0.coeffs.getD 0 0 = 2 ∧
    |(generateKeys [-1] [1] [(1 : ℚ)/2]).p0.coeffs.getD 0 0 -
      -(([1] : List Int).getD 0 0) * ([-1] : List Int).getD 0 0| ≤ 19 := by
  have h := generateKeys_p0_pointwise [-1] [1] [(1 : ℚ)/2] rfl rfl
  constructor
  · rw [h.2.2.1 0 (by decide)]
    have he : ([(1 : ℚ)/2] : List ℚ).getD 0 0 = (1 : ℚ)/2 := rfl
    rw [he, rround_half]
    decide
  · have hb : |([(1 : ℚ)/2] : List ℚ).getD 0 0| ≤ (19 : ℚ) := by
      have he : ([(1 : ℚ)/2] : List ℚ).getD 0 0 = (1 : ℚ)/2 := rfl
      rw [he, abs_le]
      constructor <;> norm_num
    exact h.2.2.2 0 (by decide) hb

/-! ## Claim C1 — the negacyclic reduction law -/

/-- The signed contribution that the rest of the fold loop, started in
state `(j, k)`, deposits at position `t`: the head coefficient counts at
`j` with sign `k`, and the state advances exactly as the loop does. -/
def offsetSum (M : Nat) : List Int → Nat → Bool → Nat → Int
  | [], _, _, _ => 0
  | c :: cs, j, k, t =>
    (if j = t then (if k then c else -c) else 0) +
    offsetSum M cs (if M ≤ j + 1 then 0 else j + 1)
      (if M ≤ j + 1 then !k else k) t

/-- The fold loop never changes the accumulator length. -/
lemma cycloFold_length (P : Int) (M : Nat) :
    ∀ (a : List Int) (j : Nat) (k : Bool) (r : List Int),
      (cycloFold P M a j k r).length = r.length := by
  intro a
  induction a with
  | nil => intro j k r; rfl
  | cons c cs ih =>
    intro j k r
    rw [cycloFold]
    split <;> rw [ih] <;> simp

/-- `getD` after `set` at an in-range position. -/
lemma getD_set_lt (r : List Int) (j t : Nat) (v : Int) (ht : t < r.length) :
    (r.set j v).getD t 0 = if j = t then v else r.getD t 0 := by
  rw [List.getD_eq_getElem?_getD, List.getD_eq_getElem?_getD,
    List.getElem?_eq_getElem (by simpa using ht),
    List.getElem?_eq_getElem ht]
  simp [List.getElem_set]

/-- Main loop invariant: starting from a reduced accumulator `r` of
length `M` in state `(j, k)`, the final value at any position `t` is the
start value plus the signed contributions of the remaining coefficients,
reduced mod `P`. -/
lemma cycloFold_getD (P : Int) (hP : 0 < P) (M : Nat) :
    ∀ (a : List Int) (j : Nat) (k : Bool) (r : List Int),
      r.length = M → j < M →
      (∀ u, u < M → 0 ≤ r.getD u 0 ∧ r.getD u 0 < P) →
      ∀ t, t < M →
        (cycloFold P M a j k r).getD t 0 =
          (r.getD t 0 + offsetSum M a j k t) % P := by
  intro a
  induction a with
  | nil =>
    intro j k r hlen hj hred t ht
    show r.getD t 0 = (r.getD t 0 + 0) % P
    rw [add_zero, Int.emod_eq_of_lt (hred t ht).1 (hred t ht).2]
  | cons c cs ih =>
    intro j k r hlen hj hred t ht
    rw [cycloFold, offsetSum]
    have hvred : ∀ x : Int, 0 ≤ x % P ∧ x % P < P := fun x =>
      ⟨Int.emod_nonneg x (by omega), Int.emod_lt_of_pos x hP⟩
    set v : Int := if k then coeffAdd P (r.getD j 0) c
                   else coeffSub P (r.getD j 0) c with hv
    have hvP : 0 ≤ v ∧ v < P := by
      cases k <;> simp only [hv, coeffAdd, coeffSub, if_true, if_false,
        Bool.false_eq_true] <;> exact hvred _
    have hlen' : (r.set j v).length = M := by simp [hlen]
    have hred' : ∀ u, u < M → 0 ≤ (r.set j v).getD u 0 ∧
        (r.set j v).getD u 0 < P := by
      intro u hu
      rw [getD_set_lt r j u v (hlen ▸ hu)]
      split
      · exact hvP
      · exact hred u hu
    have hget : (r.set j v).getD t 0 = if j = t then v else r.getD t 0 :=
      getD_set_lt r j t v (hlen ▸ ht)
    have key : ∀ (j'' : Nat) (k'' : Bool), j'' < M →
        (cycloFold P M cs j'' k'' (r.set j v)).getD t 0 =
          (r.getD t 0 + ((if j = t then (if k then c else -c) else 0) +
            offsetSum M cs j'' k'' t)) % P := by
      intro j'' k'' hj''
      rw [ih j'' k'' (r.set j v) hlen' hj'' hred' t ht, hget]
      by_cases hjt : j = t
      · subst hjt
        rw [if_pos rfl, if_pos rfl]
        cases k
        · simp only [Bool.false_eq_true, if_false, hv, coeffSub]
          rw [Int.emod_add_emod]
          congr 1
          ring
        · simp only [if_true, hv, coeffAdd]
          rw [Int.emod_add_emod]
          congr 1
          ring
      · rw [if_neg hjt, if_neg hjt, zero_add]
    split
    · exact key 0 (!k) (by omega)
    · next hnw => exact key (j + 1) k (by omega)

/-- How `(i+1) % M` and `(i+1) / M` evolve from `i % M` and `i / M`. -/
lemma succ_mod_div (M : Nat) (hM : 0 < M) (i : Nat) :
    ((i + 1) % M = if M ≤ i % M + 1 then 0 else i % M + 1) ∧
    ((i + 1) / M = if M ≤ i % M + 1 then i / M + 1 else i / M) := by
  have hd := Nat.div_add_mod i M
  have hm : i % M < M := Nat.mod_lt _ hM
  by_cases hw : M ≤ i % M + 1
  · have hmul : M * (i / M + 1) = M * (i / M) + M := by ring
    have h1 : i + 1 = M * (i / M + 1) := by omega
    rw [if_pos hw, if_pos hw, h1]
    exact ⟨Nat.mul_mod_right M _, Nat.mul_div_cancel_left _ hM⟩
  · have h1 : i + 1 = M * (i / M) + (i % M + 1) := by omega
    rw [if_neg hw, if_neg hw, h1]
    constructor
    · rw [Nat.mul_add_mod]
      exact Nat.mod_eq_of_lt (by omega)
    · rw [Nat.mul_add_div hM]
      have h0 : (i % M + 1) / M = 0 := Nat.div_eq_of_lt (by omega)
      omega

/-- The incremental-state contribution sum started at absolute index `i`
equals the closed-form signed sum of the claim: each coefficient `a_idx`
lands at position `(i + idx) % M` with sign `(-1) ^ ((i + idx) / M)`. -/
lemma offsetSum_eq (M : Nat) (hM : 0 < M) :
    ∀ (a : List Int) (i t : Nat),
      offsetSum M a (i % M) (decide ((i / M) % 2 = 0)) t =
        ∑ idx ∈ Finset.range a.length,
          (if (i + idx) % M = t
           then (if ((i + idx) / M) % 2 = 0 then a.getD idx 0
                 else -(a.getD idx 0))
           else 0) := by
  intro a
  induction a with
  | nil => intro i t; simp [offsetSum]
  | cons c cs ih =>
    intro i t
    rw [offsetSum]
    have hs := succ_mod_div M hM i
    have hj : (if M ≤ i % M + 1 then 0 else i % M + 1) = (i + 1) % M :=
      hs.1.symm
    have hk : (if M ≤ i % M + 1 then !(decide ((i / M) % 2 = 0))
        else decide ((i / M) % 2 = 0)) = decide (((i + 1) / M) % 2 = 0) := by
      by_cases hw : M ≤ i % M + 1
      · rw [if_pos hw, hs.2, if_pos hw, ← decide_not]
        rw [decide_eq_decide]
        omega
      · rw [if_neg hw, hs.2, if_neg hw]
    rw [hj, hk, ih (i + 1) t]
    have hsum : (∑ idx ∈ Finset.range cs.length,
        (if ((i + 1) + idx) % M = t
         then (if (((i + 1) + idx) / M) % 2 = 0 then cs.getD idx 0
               else -(cs.getD idx 0))
         else 0)) =
        ∑ idx ∈ Finset.range cs.length,
        (if (i + (idx + 1)) % M = t
         then (if ((i + (idx + 1)) / M) % 2 = 0 then (c :: cs).getD (idx + 1) 0
               else -((c :: cs).getD (idx + 1) 0))
         else 0) := by
      apply Finset.sum_congr rfl
      intro idx _
      have hidx : i + (idx + 1) = (i + 1) + idx := by omega
      rw [hidx, List.getD_cons_succ]
    rw [hsum, List.length_cons, Finset.sum_range_succ', add_comm]
    congr 1
    simp

/-- The ckks-lib fold loop (integer sign `k ∈ {1, -1}`, update
`(r[j] + c·k) % q`) computes the same thing as the fhe-core fold loop
with the Boolean sign `k = 1`. -/
lemma ckksCycloFoldLoop_eq (q : Int) (m : Nat) :
    ∀ (a : List Int) (j : Nat) (k : Int) (r : List Int),
      k = 1 ∨ k = -1 →
      ckksCycloFoldLoop q m a j k r = cycloFold q m a j (decide (k = 1)) r := by
  intro a
  induction a with
  | nil => intro j k r _; rfl
  | cons c cs ih =>
    intro j k r hk
    rw [ckksCycloFoldLoop, cycloFold]
    rcases hk with rfl | rfl
    · have hd : decide ((1 : Int) = 1) = true := by decide
      rw [hd]
      simp only [mul_one, if_true, coeffAdd, Bool.not_true]
      have hneg : decide ((-1 : Int) = 1) = false := by decide
      split
      · rw [ih 0 (-1) _ (Or.inr rfl), hneg]
      · rw [ih (j + 1) 1 _ (Or.inl rfl), hd]
    · have hneg : decide ((-1 : Int) = 1) = false := by decide
      rw [hneg]
      have harg : r.getD j 0 + c * (-1) = r.getD j 0 - c := by ring
      simp only [harg, Bool.false_eq_true, if_false, coeffSub, Bool.not_false]
      have hd : decide ((1 : Int) = 1) = true := by decide
      have hnn : -(-1 : Int) = 1 := by ring
      split
      · rw [hnn, ih 0 1 _ (Or.inl rfl), hd]
      · rw [ih (j + 1) (-1) _ (Or.inr rfl), hneg]

/-- The fold from the initial state (position 0, positive sign, zero
accumulator of length `M`) computes the claim's signed sums mod `P`. -/
lemma cycloFold_from_zero (P : Int) (hP : 0 < P) (M : Nat) (a : List Int)
    (t : Nat) (ht : t < M) :
    (cycloFold P M a 0 true (List.replicate M 0)).getD t 0 =
      (∑ i ∈ Finset.range a.length,
        (if i % M = t
         then (if (i / M) % 2 = 0 then a.getD i 0 else -(a.getD i 0))
         else 0)) % P := by
  have hM : 0 < M := by omega
  have h := cycloFold_getD P hP M a 0 true (List.replicate M 0) (by simp) hM
    (fun u hu => by
      rw [getD_replicate_zero]
      exact ⟨le_refl 0, hP⟩) t ht
  rw [h, getD_replicate_zero, zero_add]
  have he := offsetSum_eq M hM a 0 t
  simp only [Nat.zero_mod, Nat.zero_div, Nat.zero_add, zero_add,
    decide_eq_true_eq, decide_True] at he
  rw [← he]

/-- C1 amended: in both implementations, the folded coefficient at every
position `t < N` is the sum over all `i ≡ t (mod N)` of `a_i` with sign
`(-1)^(i div N)`, reduced into `Z_p`; the fhe-core `rem_cyclo` returns
an input of length `< N` unchanged, but the ckks-lib `rem_cyclo` has no
such early return — it always produces exactly `N = 2^n` coefficients
(zero-padding and reducing short inputs) while keeping the scale;
folding `[4,2,0,5,3]` with `N = 4` yields `[1,2,0,5]` in both. -/
theorem remCyclo_negacyclic_law :
    (∀ (P : Int) (M : Nat) (a : List Int), 0 < P → M ≤ a.length →
      (remCyclo P M a).length = M ∧
      ∀ t, t < M →
        (remCyclo P M a).getD t 0 =
          (∑ i ∈ Finset.range a.length,
            (if i % M = t
             then (if (i / M) % 2 = 0 then a.getD i 0 else -(a.getD i 0))
             else 0)) % P) ∧
    (∀ (P : Int) (M : Nat) (a : List Int), a.length < M →
      remCyclo P M a = a) ∧
    (∀ (q : Int) (n : Nat) (p : CPoly), 0 < q →
      (ckksRemCyclo p n q).coeffs.length = 2 ^ n ∧
      (ckksRemCyclo p n q).scale = p.scale ∧
      ∀ t, t < 2 ^ n →
        (ckksRemCyclo p n q).coeffs.getD t 0 =
          (∑ i ∈ Finset.range p.coeffs.length,
            (if i % 2 ^ n = t
             then (if (i / 2 ^ n) % 2 = 0 then p.coeffs.getD i 0
                   else -(p.coeffs.getD i 0))
             else 0)) % q) ∧
    polyNew 100000007 4 [4, 2, 0, 5, 3] = [1, 2, 0, 5] ∧
    (ckksRemCyclo ⟨[4, 2, 0, 5, 3], 1⟩ 2 100000007).coeffs = [1, 2, 0, 5] := by
  refine ⟨?_, ?_, ?_, by decide, by decide⟩
  · intro P M a hP hlen
    have hnl : ¬ a.length < M := by omega
    constructor
    · rw [remCyclo, if_neg hnl, cycloFold_length]
      simp
    · intro t ht
      rw [remCyclo, if_neg hnl]
      exact cycloFold_from_zero P hP M a t ht
  · intro P M a h
    rw [remCyclo, if_pos h]
  · intro q n p hq
    have hb := ckksCycloFoldLoop_eq q (2 ^ n) p.coeffs 0 1
      (List.replicate (2 ^ n) 0) (Or.inl rfl)
    have hd : decide ((1 : Int) = 1) = true := by decide
    rw [hd] at hb
    refine ⟨?_, rfl, ?_⟩
    · show (ckksCycloFoldLoop q (2 ^ n) p.coeffs 0 1
          (List.replicate (2 ^ n) 0)).length = 2 ^ n
      rw [hb, cycloFold_length]
      simp
    · intro t ht
      show (ckksCycloFoldLoop q (2 ^ n) p.coeffs 0 1
          (List.replicate (2 ^ n) 0)).getD t 0 = _
      rw [hb]
      exact cycloFold_from_zero q hq (2 ^ n) p.coeffs t ht

/-- C1 counterexample: the ckks-lib `rem_cyclo` does *not* return an
input of length `< N` unchanged: `[5]` with `N = 2^2 = 4` comes back as
the length-4 vector `[5, 0, 0, 0]`. -/
theorem ckksRemCyclo_short_input_changed :
    (ckksRemCyclo ⟨[5], 1⟩ 2 7).coeffs = [5, 0, 0, 0] ∧
    ([5, 0, 0, 0] : List Int) ≠ [5] := by decide

/-- C1 witness: `[1, 2, 3]` in `Z/7Z` folded at `N = 2` gives
`1 - 3 = 5 (mod 7)` at position 0; at `N = 4` the input is returned
unchanged; the ckks fold at `N = 2^1` agrees. -/
theorem remCyclo_negacyclic_law_witness :
    (remCyclo 7 2 [1, 2, 3]).length = 2 ∧
    (remCyclo 7 2 [1, 2, 3]).getD 0 0 = 5 ∧
    remCyclo 7 4 [1, 2, 3] = [1, 2, 3] ∧
    (ckksRemCyclo ⟨[1, 2, 3], 1⟩ 1 7).coeffs.getD 0 0 = 5 := by
  have h1 := remCyclo_negacyclic_law.1 7 2 [1, 2, 3] (by decide) (by decide)
  have h2 := remCyclo_negacyclic_law.2.1 7 4 [1, 2, 3] (by decide)
  have h3 := remCyclo_negacyclic_law.2.2.1 7 1 ⟨[1, 2, 3], 1⟩ (by decide)
  refine ⟨h1.1, ?_, h2, ?_⟩
  · rw [h1.2 0 (by decide)]
    decide
  · rw [h3.2.2 0 (by decide)]
    decide
